import Mathlib

/-!
# Verification of the scalar autograd engine (`comp_graph_node.py`)

A computation graph is embedded as an arena: a list of node records, where a
node's operands are indices of earlier entries (the source only ever links a
freshly created node to already-existing nodes, so operand indices are always
strictly smaller than the node's own index).  Each record stores the
forward-computed `scalar`, the mutable `gradient` accumulator (initialised to
0 at construction, as in `Node.__init__`), and the operation tag together
with the operand indices — the per-node `_backward` closure of the source is
realised as a fixed dispatch on this tag (`Node.backwardStep`).

Scalars are taken in an arbitrary linear ordered field `α` (the source
computes with Python floats); `np.exp` is passed as an explicit function
argument where the source calls it, so that theorems can instantiate it with
`Real.exp`.
-/

/-- Operation tag of a node: which operation produced it, together with the
arena indices of its operands.  Mirrors `_math_operator` plus
`_children_components` of the source, fused with the information the stored
`_backward` closure captures. -/
inductive Op where
  | leaf : Op
  | add (a b : Nat) : Op
  | mul (a b : Nat) : Op
  | pow (a : Nat) (p : ℤ) : Op
  | relu (a : Nat) : Op
  | sigmoid (a : Nat) : Op
deriving DecidableEq, Repr

/-- One node record of the computation graph: `scalar` (forward value),
`gradient` (accumulator, starts at 0), and the producing operation. -/
structure NodeData (α : Type) where
  scalar : α
  gradient : α
  op : Op
deriving DecidableEq, Repr

/-- The computation graph as an arena of node records; a node is referred to
by its index in this list. -/
abbrev Graph (α : Type) := List (NodeData α)

variable {α : Type} [LinearOrderedField α]

/-- `scalar` field of node `i` (0 for an out-of-range index). -/
def scalarAt (g : Graph α) (i : Nat) : α :=
  match g.get? i with
  | some nd => nd.scalar
  | none => 0

/-- `gradient` field of node `i` (0 for an out-of-range index). -/
def gradientAt (g : Graph α) (i : Nat) : α :=
  match g.get? i with
  | some nd => nd.gradient
  | none => 0

/-- Operation tag of node `i` (`leaf` for an out-of-range index). -/
def opAt (g : Graph α) (i : Nat) : Op :=
  match g.get? i with
  | some nd => nd.op
  | none => Op.leaf

namespace Node

/-- `Node(scalar)`: create a fresh leaf node wrapping a constant; its
gradient starts at 0 and its backward rule is a no-op.  Returns the grown
arena and the index of the new node. -/
def leaf (g : Graph α) (c : α) : Graph α × Nat :=
  (g ++ [⟨c, 0, Op.leaf⟩], g.length)

/-- `Node.__add__`: `res = Node(self.scalar + b.scalar, (self, b), '+')`. -/
def add (g : Graph α) (a b : Nat) : Graph α × Nat :=
  (g ++ [⟨scalarAt g a + scalarAt g b, 0, Op.add a b⟩], g.length)

/-- `Node.__mul__`: `res = Node(self.scalar * b.scalar, (self, b), '*')`. -/
def mul (g : Graph α) (a b : Nat) : Graph α × Nat :=
  (g ++ [⟨scalarAt g a * scalarAt g b, 0, Op.mul a b⟩], g.length)

/-- `Node._pow__`: `res = Node(self.scalar ** b, (self, ), ...)` with a
constant integer exponent (the source asserts `b` is an `int` or `float`;
the claims only exercise integer exponents, embedded via `zpow`). -/
def pow (g : Graph α) (a : Nat) (p : ℤ) : Graph α × Nat :=
  (g ++ [⟨scalarAt g a ^ p, 0, Op.pow a p⟩], g.length)

/-- `Node.relu`: `res = Node(0 if self.scalar < 0 else self.scalar, ...)`. -/
def relu (g : Graph α) (a : Nat) : Graph α × Nat :=
  (g ++ [⟨if scalarAt g a < 0 then 0 else scalarAt g a, 0, Op.relu a⟩], g.length)

/-- `Node.sigmoid`: `res = Node(1/(1 + np.exp(-self.scalar)), (self,), ...)`;
`np.exp` is passed in as `e`. -/
def sigmoid (e : α → α) (g : Graph α) (a : Nat) : Graph α × Nat :=
  (g ++ [⟨1 / (1 + e (-scalarAt g a)), 0, Op.sigmoid a⟩], g.length)

/-- `Node.__truediv__`: `return self * b ** (-1)` — division is the
composition of the base power and multiply operations, with no backward rule
of its own. -/
def truediv (g : Graph α) (a b : Nat) : Graph α × Nat :=
  let gb := pow g b (-1)
  mul gb.1 a gb.2

/-- `Node.__rtruediv__`: `return b * self ** (-1)` for a plain number `b`
(the non-node operand is wrapped into a fresh leaf at the multiply
boundary). -/
def rtruediv (g : Graph α) (a : Nat) (c : α) : Graph α × Nat :=
  let ga := pow g a (-1)
  let gc := leaf ga.1 c
  mul gc.1 gc.2 ga.2

/-- `Node.softmax`: `sum_softmax = 0; for xi in x: sum_softmax =
np.exp(xi.scalar)` — the loop body *overwrites* the accumulator instead of
adding to it — then returns the plain number
`np.exp(self.scalar) / sum_softmax` (no node is created and no backward rule
is recorded). -/
def softmax (e : α → α) (g : Graph α) (a : Nat) (x : List Nat) : α :=
  let sum_softmax := x.foldl (fun _ xi => e (scalarAt g xi)) 0
  e (scalarAt g a) / sum_softmax

end Node

/-- A Python value appearing as the right operand of a comparison: either a
tracked node (an arena index) or a plain number. -/
inductive PyVal (α : Type) where
  | node (i : Nat) : PyVal α
  | num (x : α) : PyVal α

/-- Reading the `scalar` attribute of a comparison operand: a node has the
attribute; a plain number does not (`AttributeError`), modelled as `none`. -/
def scalarAttr (g : Graph α) : PyVal α → Option α
  | PyVal.node i => some (scalarAt g i)
  | PyVal.num _ => none

namespace Node

/-- `Node.__gt__`: `return self.scalar > other.scalar`; fails when `other`
has no `scalar` attribute.  No node is created: the result is a bare
boolean. -/
def gt (g : Graph α) (i : Nat) (other : PyVal α) : Option Bool :=
  (scalarAttr g other).map (fun s => decide (s < scalarAt g i))

/-- `Node.__lt__`: `return self.scalar < other.scalar`. -/
def lt (g : Graph α) (i : Nat) (other : PyVal α) : Option Bool :=
  (scalarAttr g other).map (fun s => decide (scalarAt g i < s))

/-- `Node.__ge__`: `return self.scalar >= other.scalar`. -/
def ge (g : Graph α) (i : Nat) (other : PyVal α) : Option Bool :=
  (scalarAttr g other).map (fun s => decide (s ≤ scalarAt g i))

/-- `Node.__le__`: `return self.scalar <= other.scalar`. -/
def le (g : Graph α) (i : Nat) (other : PyVal α) : Option Bool :=
  (scalarAttr g other).map (fun s => decide (scalarAt g i ≤ s))

end Node

/-- Operand indices stored in an operation tag (the `_children_components`
tuple passed to the `Node` constructor). -/
def opChildren : Op → List Nat
  | Op.leaf => []
  | Op.add a b => [a, b]
  | Op.mul a b => [a, b]
  | Op.pow a _ => [a]
  | Op.relu a => [a]
  | Op.sigmoid a => [a]

/-- `_previous = set(_children_components)`: the operand indices of node `i`
as a duplicate-free list (sets collapse a node used twice, as in `a + a`). -/
def childrenOf (g : Graph α) (i : Nat) : List Nat :=
  (opChildren (opAt g i)).dedup

/-- State of `build_topological_sort`: the `visited` set and the
`topological_sorted` output sequence. -/
structure TopoState where
  visited : List Nat
  topological_sorted : List Nat
deriving DecidableEq, Repr

/-- `build_topological_sort(i)`: depth-first traversal over the operand
relation; a node is appended to `topological_sorted` only after all of its
operands have been (post-order), and `visited` guarantees each node is
processed once.  The `fuel` argument only bounds the recursion depth: every
descent is to a strictly smaller operand index for graphs built by the
constructors, so a fuel of `root + 1` is never exhausted (the source assumes
acyclicity and recurses without a bound). -/
def build_topological_sort (g : Graph α) : Nat → Nat → TopoState → TopoState
  | 0, _, st => st
  | fuel + 1, i, st =>
      if i ∈ st.visited then st
      else
        let st2 := (childrenOf g i).foldl
          (fun s c => build_topological_sort g fuel c s)
          ⟨i :: st.visited, st.topological_sorted⟩
        ⟨st2.visited, st2.topological_sorted ++ [i]⟩

/-- `node.gradient += v` on node `j` (no-op on an out-of-range index). -/
def addGrad (g : Graph α) (j : Nat) (v : α) : Graph α :=
  match g.get? j with
  | some nd => g.set j ⟨nd.scalar, nd.gradient + v, nd.op⟩
  | none => g

/-- `node.gradient = v` on node `j` (overwrite; used for the seed). -/
def setGrad (g : Graph α) (j : Nat) (v : α) : Graph α :=
  match g.get? j with
  | some nd => g.set j ⟨nd.scalar, v, nd.op⟩
  | none => g

namespace Node

/-- The `_backward` closure stored on node `i`, dispatched on its operation
tag; each branch performs exactly the gradient updates of the corresponding
closure in the source, in statement order:
* `+` : `self.gradient += res.gradient; b.gradient += res.gradient`
* `*` : `self.gradient += b.scalar * res.gradient;
         b.gradient += self.scalar * res.gradient`
* `**p` : `self.gradient += (b * self.scalar ** (b - 1)) * res.gradient`
* ReLU : `self.gradient += (res.scalar > 0) * res.gradient`
* Sigmoid : `self.gradient += res.scalar * (1 - res.scalar)` — note: the
  source does **not** multiply by `res.gradient` here
* leaf : `lambda: None`. -/
def backwardStep (g : Graph α) (i : Nat) : Graph α :=
  match opAt g i with
  | Op.leaf => g
  | Op.add a b =>
      let g1 := addGrad g a (gradientAt g i)
      addGrad g1 b (gradientAt g1 i)
  | Op.mul a b =>
      let g1 := addGrad g a (scalarAt g b * gradientAt g i)
      addGrad g1 b (scalarAt g1 a * gradientAt g1 i)
  | Op.pow a p =>
      addGrad g a (((p : α) * scalarAt g a ^ (p - 1)) * gradientAt g i)
  | Op.relu a =>
      addGrad g a ((if 0 < scalarAt g i then (1 : α) else 0) * gradientAt g i)
  | Op.sigmoid a =>
      addGrad g a (scalarAt g i * (1 - scalarAt g i))

/-- `Node.backward_propagation`: build the topological order from the root,
seed the root's gradient with 1 (`self.gradient = 1`), then invoke each
node's backward rule walking the order in reverse. -/
def backward_propagation (g : Graph α) (root : Nat) : Graph α :=
  let order := (build_topological_sort g (root + 1) root ⟨[], []⟩).topological_sorted
  let g1 := setGrad g root 1
  order.reverse.foldl (fun h i => backwardStep h i) g1

end Node

/-! ## Frame lemmas: gradient updates never touch `scalar` or the operation -/

theorem scalarAt_addGrad (g : Graph α) (j k : Nat) (v : α) :
    scalarAt (addGrad g j v) k = scalarAt g k := by
  unfold addGrad
  cases h : g.get? j with
  | none => rfl
  | some nd =>
      unfold scalarAt
      rcases eq_or_ne k j with rfl | hk
      · rw [List.get?_set_eq, h]
        rfl
      · rw [List.get?_set_ne _ _ hk.symm]

theorem opAt_addGrad (g : Graph α) (j k : Nat) (v : α) :
    opAt (addGrad g j v) k = opAt g k := by
  unfold addGrad
  cases h : g.get? j with
  | none => rfl
  | some nd =>
      unfold opAt
      rcases eq_or_ne k j with rfl | hk
      · rw [List.get?_set_eq, h]
        rfl
      · rw [List.get?_set_ne _ _ hk.symm]

theorem scalarAt_setGrad (g : Graph α) (j k : Nat) (v : α) :
    scalarAt (setGrad g j v) k = scalarAt g k := by
  unfold setGrad
  cases h : g.get? j with
  | none => rfl
  | some nd =>
      unfold scalarAt
      rcases eq_or_ne k j with rfl | hk
      · rw [List.get?_set_eq, h]
        rfl
      · rw [List.get?_set_ne _ _ hk.symm]

theorem opAt_setGrad (g : Graph α) (j k : Nat) (v : α) :
    opAt (setGrad g j v) k = opAt g k := by
  unfold setGrad
  cases h : g.get? j with
  | none => rfl
  | some nd =>
      unfold opAt
      rcases eq_or_ne k j with rfl | hk
      · rw [List.get?_set_eq, h]
        rfl
      · rw [List.get?_set_ne _ _ hk.symm]

theorem scalarAt_backwardStep (g : Graph α) (i k : Nat) :
    scalarAt (Node.backwardStep g i) k = scalarAt g k := by
  unfold Node.backwardStep
  cases opAt g i <;> simp [scalarAt_addGrad]

theorem opAt_backwardStep (g : Graph α) (i k : Nat) :
    opAt (Node.backwardStep g i) k = opAt g k := by
  unfold Node.backwardStep
  cases opAt g i <;> simp [opAt_addGrad]

theorem scalarAt_foldl_backwardStep (l : List Nat) (k : Nat) :
    ∀ g : Graph α,
      scalarAt (l.foldl (fun h i => Node.backwardStep h i) g) k = scalarAt g k := by
  induction l with
  | nil => intro g; rfl
  | cons i l ih => intro g; rw [List.foldl_cons, ih, scalarAt_backwardStep]

theorem opAt_foldl_backwardStep (l : List Nat) (k : Nat) :
    ∀ g : Graph α,
      opAt (l.foldl (fun h i => Node.backwardStep h i) g) k = opAt g k := by
  induction l with
  | nil => intro g; rfl
  | cons i l ih => intro g; rw [List.foldl_cons, ih, opAt_backwardStep]

/-! ## Example graphs used in the claims' concrete scenarios -/

/-- `a = Node(x); b = Node(y); r = a + b` — indices 0, 1, 2. -/
def addExample (x y : α) : Graph α :=
  (Node.add (Node.leaf (Node.leaf [] x).1 y).1 0 1).1

/-- `a = Node(x); c = a + a` — the diamond where one node is used twice. -/
def diamondExample (x : α) : Graph α :=
  (Node.add (Node.leaf [] x).1 0 0).1

/-- `a = Node(x); b = Node(y); r = a * b` — indices 0, 1, 2. -/
def mulExample (x y : α) : Graph α :=
  (Node.mul (Node.leaf (Node.leaf [] x).1 y).1 0 1).1

/-- `a = Node(x); r = a ** p` (via the source's power routine) — indices 0, 1. -/
def powExample (x : α) (p : ℤ) : Graph α :=
  (Node.pow (Node.leaf [] x).1 0 p).1

/-- `a = Node(x); s = a ** p; t = s + s` — gives the power node an upstream
gradient of 2, so the scaling of the backward rule by `r.gradient` is
observable. -/
def powUpstreamExample (x : α) (p : ℤ) : Graph α :=
  (Node.add (Node.pow (Node.leaf [] x).1 0 p).1 1 1).1

/-- `a = Node(x); b = Node(y); r = a / b` — indices 0, 1, then 2 = `b**(-1)`
and 3 = `a * b**(-1)`. -/
def divExample (x y : α) : Graph α :=
  (Node.truediv (Node.leaf (Node.leaf [] x).1 y).1 0 1).1

/-- `a = Node(x); r = a.relu()` — indices 0, 1. -/
def reluExample (x : α) : Graph α :=
  (Node.relu (Node.leaf [] x).1 0).1

/-- `a = Node(0); r = a.sigmoid(); c = r + r` — gives the sigmoid node an
upstream gradient of 2, exposing whether the backward rule scales by it. -/
def sigmoidExample (e : α → α) : Graph α :=
  (Node.add (Node.sigmoid e (Node.leaf [] 0).1 0).1 1 1).1

/-- Three leaf nodes with scalar 0 — indices 0, 1, 2. -/
def softmaxExample : Graph α :=
  (Node.leaf (Node.leaf (Node.leaf [] 0).1 0).1 0).1

/-- Unfolds one backward pass once the topological order of the root has been
computed (by `rfl` on the concrete graph at hand). -/
theorem backward_propagation_eq (g : Graph α) (root : Nat) (l : List Nat)
    (h : (build_topological_sort g (root + 1) root ⟨[], []⟩).topological_sorted = l) :
    Node.backward_propagation g root
      = l.reverse.foldl (fun h i => Node.backwardStep h i) (setGrad g root 1) := by
  rw [Node.backward_propagation, h]

/-! ## Claim theorems -/

/-- C5: the additive backward rule passes the upstream gradient unchanged to
each operand, and contributions accumulate rather than overwrite: for
`r = a + b` with distinct leaf nodes, after backward propagation from `r`
both operands' gradients are 1; for `c = a + a` (the same node used twice)
the operand's gradient is 2. -/
theorem add_backward_rule (x y : α) :
    scalarAt (addExample x y) 2 = x + y ∧
    gradientAt (Node.backward_propagation (addExample x y) 2) 0 = 1 ∧
    gradientAt (Node.backward_propagation (addExample x y) 2) 1 = 1 ∧
    gradientAt (Node.backward_propagation (diamondExample x) 1) 0 = 2 := by
  have hfin : Node.backward_propagation (addExample x y) 2
      = [⟨x, 0 + 1, Op.leaf⟩, ⟨y, 0 + 1, Op.leaf⟩,
         ⟨x + y, 1, Op.add 0 1⟩] := by
    rw [backward_propagation_eq (addExample x y) 2 [0, 1, 2] rfl]
    rfl
  have hfin2 : Node.backward_propagation (diamondExample x) 1
      = [⟨x, 0 + 1 + 1, Op.leaf⟩, ⟨x + x, 1, Op.add 0 0⟩] := by
    rw [backward_propagation_eq (diamondExample x) 1 [0, 1] rfl]
    rfl
  refine ⟨rfl, ?_, ?_, ?_⟩
  · rw [hfin]
    show (0 : α) + 1 = 1
    norm_num
  · rw [hfin]
    show (0 : α) + 1 = 1
    norm_num
  · rw [hfin2]
    show (0 : α) + 1 + 1 = 2
    norm_num

/-- C6: `multiply(a, b)` returns `r` with `r.scalar = a.scalar * b.scalar`,
and its backward rule contributes cross-derivatives scaled by the upstream
gradient: after backward from `r`, `a.gradient = b.scalar` and
`b.gradient = a.scalar`; in particular 4 and 3 for scalars 3 and 4. -/
theorem mul_backward_rule :
    (∀ x y : α,
      scalarAt (mulExample x y) 2 = x * y ∧
      gradientAt (Node.backward_propagation (mulExample x y) 2) 0 = y ∧
      gradientAt (Node.backward_propagation (mulExample x y) 2) 1 = x) ∧
    gradientAt (Node.backward_propagation (mulExample (3 : ℚ) 4) 2) 0 = 4 ∧
    gradientAt (Node.backward_propagation (mulExample (3 : ℚ) 4) 2) 1 = 3 := by
  have hfin : ∀ x y : α, Node.backward_propagation (mulExample x y) 2
      = [⟨x, 0 + y * 1, Op.leaf⟩, ⟨y, 0 + x * 1, Op.leaf⟩,
         ⟨x * y, 1, Op.mul 0 1⟩] := by
    intro x y
    rw [backward_propagation_eq (mulExample x y) 2 [0, 1, 2] rfl]
    rfl
  have hq : Node.backward_propagation (mulExample (3 : ℚ) 4) 2
      = [⟨3, 0 + 4 * 1, Op.leaf⟩, ⟨4, 0 + 3 * 1, Op.leaf⟩,
         ⟨3 * 4, 1, Op.mul 0 1⟩] := by
    rw [backward_propagation_eq (mulExample (3 : ℚ) 4) 2 [0, 1, 2] rfl]
    rfl
  refine ⟨fun x y => ⟨rfl, ?_, ?_⟩, ?_, ?_⟩
  · rw [hfin]
    show (0 : α) + y * 1 = y
    ring
  · rw [hfin]
    show (0 : α) + x * 1 = x
    ring
  · rw [hq]
    show (0 : ℚ) + 4 * 1 = 4
    norm_num
  · rw [hq]
    show (0 : ℚ) + 3 * 1 = 3
    norm_num

/-- C1: the source's power routine with a constant integer exponent `p`
produces `r.scalar = a.scalar ^ p`, and its backward rule increases
`a.gradient` by `p * a.scalar ^ (p - 1) * r.gradient` (the upstream
gradient 2 in the `powUpstreamExample` is picked up by the rule); in
particular for `r = a ** 3` with `a.scalar = 2`, after backward from `r`,
`a.gradient = 12`. -/
theorem pow_rule :
    (∀ (x : α) (p : ℤ),
      scalarAt (powExample x p) 1 = x ^ p ∧
      gradientAt (Node.backward_propagation (powExample x p) 1) 0
        = (p : α) * x ^ (p - 1) ∧
      gradientAt (Node.backward_propagation (powUpstreamExample x p) 2) 0
        = (p : α) * x ^ (p - 1) * 2) ∧
    gradientAt (Node.backward_propagation (powExample (2 : ℚ) 3) 1) 0 = 12 := by
  have hfin : ∀ (x : α) (p : ℤ), Node.backward_propagation (powExample x p) 1
      = [⟨x, 0 + (p : α) * x ^ (p - 1) * 1, Op.leaf⟩,
         ⟨x ^ p, 1, Op.pow 0 p⟩] := by
    intro x p
    rw [backward_propagation_eq (powExample x p) 1 [0, 1] rfl]
    rfl
  have hfin2 : ∀ (x : α) (p : ℤ),
      Node.backward_propagation (powUpstreamExample x p) 2
      = [⟨x, 0 + (p : α) * x ^ (p - 1) * (0 + 1 + 1), Op.leaf⟩,
         ⟨x ^ p, 0 + 1 + 1, Op.pow 0 p⟩,
         ⟨x ^ p + x ^ p, 1, Op.add 1 1⟩] := by
    intro x p
    rw [backward_propagation_eq (powUpstreamExample x p) 2 [0, 1, 2] rfl]
    rfl
  refine ⟨fun x p => ⟨rfl, ?_, ?_⟩, ?_⟩
  · rw [hfin]
    show (0 : α) + (p : α) * x ^ (p - 1) * 1 = (p : α) * x ^ (p - 1)
    ring
  · rw [hfin2]
    show (0 : α) + (p : α) * x ^ (p - 1) * ((0 : α) + 1 + 1)
        = (p : α) * x ^ (p - 1) * 2
    ring
  · have hq : Node.backward_propagation (powExample (2 : ℚ) 3) 1
        = [⟨2, 0 + ((3 : ℤ) : ℚ) * (2 : ℚ) ^ ((3 : ℤ) - 1) * 1, Op.leaf⟩,
           ⟨(2 : ℚ) ^ (3 : ℤ), 1, Op.pow 0 3⟩] := by
      rw [backward_propagation_eq (powExample (2 : ℚ) 3) 1 [0, 1] rfl]
      rfl
    rw [hq]
    show (0 : ℚ) + ((3 : ℤ) : ℚ) * (2 : ℚ) ^ ((3 : ℤ) - 1) * 1 = 12
    norm_num

/-- C7: `relu(a)` returns `r` with `r.scalar = max 0 a.scalar`, and after
backward from `r` the operand's gradient is 1 exactly when `r.scalar > 0`
and 0 otherwise — in particular the gradient is blocked at the boundary
`a.scalar = 0` (subgradient 0, not 1). -/
theorem relu_rule (x : α) :
    scalarAt (reluExample x) 1 = max 0 x ∧
    gradientAt (Node.backward_propagation (reluExample x) 1) 0
      = (if 0 < x then 1 else 0) := by
  have hfin : Node.backward_propagation (reluExample x) 1
      = [⟨x, 0 + (if 0 < (if x < 0 then (0 : α) else x) then (1 : α) else 0) * 1,
          Op.leaf⟩,
         ⟨if x < 0 then (0 : α) else x, 1, Op.relu 0⟩] := by
    rw [backward_propagation_eq (reluExample x) 1 [0, 1] rfl]
    rfl
  constructor
  · show (if x < 0 then (0 : α) else x) = max 0 x
    rcases lt_or_le x 0 with h | h
    · rw [if_pos h, max_eq_left h.le]
    · rw [if_neg (not_lt.mpr h), max_eq_right h]
  · rw [hfin]
    show (0 : α) + (if 0 < (if x < 0 then (0 : α) else x) then (1 : α) else 0) * 1
        = (if 0 < x then 1 else 0)
    rcases lt_trichotomy x 0 with h | rfl | h
    · rw [if_pos h, if_neg (lt_irrefl (0 : α)), if_neg (not_lt.mpr h.le)]
      norm_num
    · simp [lt_irrefl]
    · rw [if_neg (not_lt.mpr h.le), if_pos h]
      norm_num

/-- C3: `a / b` is the derived operator `a * b ** (-1)` — literally the
composition of the base power and multiply operations, with no backward rule
of its own — and likewise the right-form `b / a` is `b * a ** (-1)`.  The
gradients after backward from `r = a / b` therefore come out of the base
rules alone: `a.gradient = b.scalar ^ (-1)` and
`b.gradient = -(a.scalar * b.scalar ^ (-2))`. -/
theorem truediv_is_composition :
    (∀ (g : Graph α) (a b : Nat),
      Node.truediv g a b
        = Node.mul (Node.pow g b (-1)).1 a (Node.pow g b (-1)).2) ∧
    (∀ (g : Graph α) (a : Nat) (c : α),
      Node.rtruediv g a c
        = Node.mul (Node.leaf (Node.pow g a (-1)).1 c).1
            (Node.leaf (Node.pow g a (-1)).1 c).2 (Node.pow g a (-1)).2) ∧
    (∀ x y : α,
      scalarAt (divExample x y) 3 = x * y ^ (-1 : ℤ) ∧
      gradientAt (Node.backward_propagation (divExample x y) 3) 0
        = y ^ (-1 : ℤ) ∧
      gradientAt (Node.backward_propagation (divExample x y) 3) 1
        = -(x * y ^ (-2 : ℤ))) := by
  refine ⟨fun g a b => rfl, fun g a c => rfl, fun x y => ?_⟩
  have hfin : Node.backward_propagation (divExample x y) 3
      = [⟨x, 0 + y ^ (-1 : ℤ) * 1, Op.leaf⟩,
         ⟨y, 0 + ((-1 : ℤ) : α) * y ^ ((-1 : ℤ) - 1) * (0 + x * 1), Op.leaf⟩,
         ⟨y ^ (-1 : ℤ), 0 + x * 1, Op.pow 1 (-1)⟩,
         ⟨x * y ^ (-1 : ℤ), 1, Op.mul 0 2⟩] := by
    rw [backward_propagation_eq (divExample x y) 3 [0, 1, 2, 3] rfl]
    rfl
  refine ⟨rfl, ?_, ?_⟩
  · rw [hfin]
    show (0 : α) + y ^ (-1 : ℤ) * 1 = y ^ (-1 : ℤ)
    ring
  · rw [hfin]
    show (0 : α) + ((-1 : ℤ) : α) * y ^ ((-1 : ℤ) - 1) * ((0 : α) + x * 1)
        = -(x * y ^ (-2 : ℤ))
    push_cast
    ring_nf

/-- C2 (refuted): the forward value of `sigmoid` is
`1 / (1 + exp(-a.scalar))` — here 1/2 at `a.scalar = 0` — but the source's
backward rule adds `r.scalar * (1 - r.scalar)` to `a.gradient` **without**
scaling by the upstream gradient `r.gradient`: with `c = r + r` the sigmoid
node's accumulated gradient is 2, yet `a.gradient` ends at 1/4, not the
claimed `r.scalar * (1 - r.scalar) * r.gradient = 1/2`. -/
theorem sigmoid_backward_drops_upstream :
    scalarAt (sigmoidExample Real.exp) 1 = 1 / 2 ∧
    gradientAt (Node.backward_propagation (sigmoidExample Real.exp) 2) 1 = 2 ∧
    gradientAt (Node.backward_propagation (sigmoidExample Real.exp) 2) 0 = 1 / 4 ∧
    gradientAt (Node.backward_propagation (sigmoidExample Real.exp) 2) 0
      ≠ scalarAt (sigmoidExample Real.exp) 1
        * (1 - scalarAt (sigmoidExample Real.exp) 1)
        * gradientAt (Node.backward_propagation (sigmoidExample Real.exp) 2) 1 := by
  have hs : scalarAt (sigmoidExample Real.exp) 1 = 1 / 2 := by
    show 1 / (1 + Real.exp (-(0 : ℝ))) = 1 / 2
    rw [neg_zero, Real.exp_zero]
    norm_num
  have hfin : Node.backward_propagation (sigmoidExample Real.exp) 2
      = [⟨0, 0 + scalarAt (sigmoidExample Real.exp) 1
            * (1 - scalarAt (sigmoidExample Real.exp) 1), Op.leaf⟩,
         ⟨1 / (1 + Real.exp (-(0 : ℝ))), 0 + 1 + 1, Op.sigmoid 0⟩,
         ⟨1 / (1 + Real.exp (-(0 : ℝ))) + 1 / (1 + Real.exp (-(0 : ℝ))), 1,
          Op.add 1 1⟩] := by
    rw [backward_propagation_eq (sigmoidExample Real.exp) 2 [0, 1, 2] rfl]
    rfl
  have hg1 : gradientAt (Node.backward_propagation (sigmoidExample Real.exp) 2) 1
      = 2 := by
    rw [hfin]
    show (0 : ℝ) + 1 + 1 = 2
    norm_num
  have hg0 : gradientAt (Node.backward_propagation (sigmoidExample Real.exp) 2) 0
      = 1 / 4 := by
    rw [hfin]
    show (0 : ℝ) + scalarAt (sigmoidExample Real.exp) 1
        * (1 - scalarAt (sigmoidExample Real.exp) 1) = 1 / 4
    rw [hs]
    norm_num
  refine ⟨hs, hg1, hg0, ?_⟩
  rw [hs, hg1, hg0]
  norm_num

/-- C8 (refuted): `softmax` accumulates the exponential sum by overwriting,
so with two reference nodes of scalar 0 it returns
`exp 0 / exp 0 = 1` instead of the claimed
`exp 0 / (exp 0 + exp 0) = 1/2`; it returns a plain number, not a node. -/
theorem softmax_overwrites_sum :
    Node.softmax Real.exp (softmaxExample (α := ℝ)) 0 [1, 2] = 1 ∧
    Real.exp (scalarAt (softmaxExample (α := ℝ)) 0)
        / (Real.exp (scalarAt (softmaxExample (α := ℝ)) 1)
            + Real.exp (scalarAt (softmaxExample (α := ℝ)) 2)) = 1 / 2 ∧
    Node.softmax Real.exp (softmaxExample (α := ℝ)) 0 [1, 2]
      ≠ Real.exp (scalarAt (softmaxExample (α := ℝ)) 0)
          / (Real.exp (scalarAt (softmaxExample (α := ℝ)) 1)
              + Real.exp (scalarAt (softmaxExample (α := ℝ)) 2)) := by
  have h1 : Node.softmax Real.exp (softmaxExample (α := ℝ)) 0 [1, 2] = 1 := by
    show Real.exp (0 : ℝ) / Real.exp (0 : ℝ) = 1
    rw [Real.exp_zero]
    norm_num
  have h2 : Real.exp (scalarAt (softmaxExample (α := ℝ)) 0)
      / (Real.exp (scalarAt (softmaxExample (α := ℝ)) 1)
          + Real.exp (scalarAt (softmaxExample (α := ℝ)) 2)) = 1 / 2 := by
    show Real.exp (0 : ℝ) / (Real.exp (0 : ℝ) + Real.exp (0 : ℝ)) = 1 / 2
    rw [Real.exp_zero]
    norm_num
  refine ⟨h1, h2, ?_⟩
  rw [h1, h2]
  norm_num

/-- C9: backward propagation leaves every node's `scalar` (and its recorded
operation) unchanged, for any graph and any root: only `gradient` fields are
mutated. -/
theorem backward_preserves_scalars (g : Graph α) (root i : Nat) :
    scalarAt (Node.backward_propagation g root) i = scalarAt g i ∧
    opAt (Node.backward_propagation g root) i = opAt g i := by
  constructor
  · rw [Node.backward_propagation, scalarAt_foldl_backwardStep, scalarAt_setGrad]
  · rw [Node.backward_propagation, opAt_foldl_backwardStep, opAt_setGrad]

/-- C10: the comparison operators read the `scalar` attribute of the right
operand without wrapping it, so comparing with a plain number fails
(`AttributeError`, modelled as `none`), while comparing two nodes yields a
bare boolean determined solely by the two `scalar` fields — no node is
created. -/
theorem comparisons_no_autowrap (g : Graph α) (i j : Nat) (c : α) :
    Node.gt g i (PyVal.num c) = none ∧
    Node.lt g i (PyVal.num c) = none ∧
    Node.ge g i (PyVal.num c) = none ∧
    Node.le g i (PyVal.num c) = none ∧
    Node.gt g i (PyVal.node j) = some (decide (scalarAt g j < scalarAt g i)) ∧
    Node.lt g i (PyVal.node j) = some (decide (scalarAt g i < scalarAt g j)) ∧
    Node.ge g i (PyVal.node j) = some (decide (scalarAt g j ≤ scalarAt g i)) ∧
    Node.le g i (PyVal.node j) = some (decide (scalarAt g i ≤ scalarAt g j)) :=
  ⟨rfl, rfl, rfl, rfl, rfl, rfl, rfl, rfl⟩

/-! ## Topological-sort correctness (C4) -/

/-- Arena well-formedness: every in-range node's operands have strictly
smaller index — the invariant the operators maintain, since a fresh node
only ever links to already-existing nodes. -/
def WfB (g : Graph α) : Prop :=
  ∀ i, i < g.length → ∀ c ∈ childrenOf g i, c < i

theorem childrenOf_of_le (g : Graph α) (i : Nat) (h : g.length ≤ i) :
    childrenOf g i = [] := by
  unfold childrenOf opAt
  rw [List.get?_len_le h]
  rfl

theorem childrenOf_lt (g : Graph α) (hwf : WfB g) (i : Nat) :
    ∀ c ∈ childrenOf g i, c < i := by
  intro c hc
  rcases lt_or_le i g.length with h | h
  · exact hwf i h c hc
  · rw [childrenOf_of_le g i h] at hc
    exact absurd hc (List.not_mem_nil c)

/-- Graphs reachable through the documented construction operators: each
operator appends one fresh node whose operands are indices of existing
nodes. -/
inductive Built : Graph α → Prop where
  | nil : Built []
  | leaf (g : Graph α) (c : α) : Built g → Built (Node.leaf g c).1
  | add (g : Graph α) (a b : Nat) : Built g → a < g.length → b < g.length →
      Built (Node.add g a b).1
  | mul (g : Graph α) (a b : Nat) : Built g → a < g.length → b < g.length →
      Built (Node.mul g a b).1
  | pow (g : Graph α) (a : Nat) (p : ℤ) : Built g → a < g.length →
      Built (Node.pow g a p).1
  | relu (g : Graph α) (a : Nat) : Built g → a < g.length →
      Built (Node.relu g a).1
  | sigmoid (e : α → α) (g : Graph α) (a : Nat) : Built g → a < g.length →
      Built (Node.sigmoid e g a).1

theorem opAt_append_lt (g : Graph α) (nd : NodeData α) (i : Nat)
    (h : i < g.length) : opAt (g ++ [nd]) i = opAt g i := by
  unfold opAt
  rw [List.get?_append h]

theorem opAt_append_len (g : Graph α) (nd : NodeData α) :
    opAt (g ++ [nd]) g.length = nd.op := by
  unfold opAt
  rw [List.get?_concat_length]

theorem wfB_append (g : Graph α) (nd : NodeData α) (hwf : WfB g)
    (hnd : ∀ c ∈ opChildren nd.op, c < g.length) : WfB (g ++ [nd]) := by
  intro i hi c hc
  have hi2 : i < g.length + 1 := by simpa using hi
  rcases Nat.lt_succ_iff_lt_or_eq.mp hi2 with h | h
  · have heq : childrenOf (g ++ [nd]) i = childrenOf g i := by
      unfold childrenOf
      rw [opAt_append_lt g nd i h]
    rw [heq] at hc
    exact hwf i h c hc
  · subst h
    have heq : childrenOf (g ++ [nd]) g.length = (opChildren nd.op).dedup := by
      unfold childrenOf
      rw [opAt_append_len]
    rw [heq] at hc
    exact hnd c (List.mem_dedup.mp hc)

theorem Built.wfB {g : Graph α} (hb : Built g) : WfB g := by
  induction hb with
  | nil => intro i h; exact absurd h (Nat.not_lt_zero i)
  | leaf g c _ ih =>
      refine wfB_append g _ ih ?_
      intro c' hc'
      exact absurd hc' (List.not_mem_nil c')
  | add g a b _ ha hb2 ih =>
      refine wfB_append g _ ih ?_
      intro c' hc'
      rcases List.mem_cons.mp hc' with rfl | hc'
      · exact ha
      · rw [List.mem_singleton.mp hc']
        exact hb2
  | mul g a b _ ha hb2 ih =>
      refine wfB_append g _ ih ?_
      intro c' hc'
      rcases List.mem_cons.mp hc' with rfl | hc'
      · exact ha
      · rw [List.mem_singleton.mp hc']
        exact hb2
  | pow g a p _ ha ih =>
      refine wfB_append g _ ih ?_
      intro c' hc'
      rw [List.mem_singleton.mp hc']
      exact ha
  | relu g a _ ha ih =>
      refine wfB_append g _ ih ?_
      intro c' hc'
      rw [List.mem_singleton.mp hc']
      exact ha
  | sigmoid e g a _ ha ih =>
      refine wfB_append g _ ih ?_
      intro c' hc'
      rw [List.mem_singleton.mp hc']
      exact ha

/-- The ordering property the spec demands of the output sequence: every
node's operands appear strictly before it. -/
def OrderOK (g : Graph α) (out : List Nat) : Prop :=
  ∀ (n : Nat) (h : n < out.length),
    ∀ c ∈ childrenOf g (out.get ⟨n, h⟩), c ∈ out.take n

/-- Invariant of the traversal state: the output sequence has no duplicates,
is contained in the visited set, and is operand-closed in order. -/
def TopoInv (g : Graph α) (st : TopoState) : Prop :=
  st.topological_sorted.Nodup ∧
  (∀ j ∈ st.topological_sorted, j ∈ st.visited) ∧
  OrderOK g st.topological_sorted

/-- How one complete traversal call extends the state: the output grows by
appending; the visited set grows; no new visited-but-unfinished nodes remain
(the recursion stack shrinks back); and freshly appended nodes were
unvisited. -/
def TopoExt (st st2 : TopoState) : Prop :=
  (∃ d, st2.topological_sorted = st.topological_sorted ++ d) ∧
  (∀ v ∈ st.visited, v ∈ st2.visited) ∧
  (∀ v ∈ st2.visited, v ∉ st2.topological_sorted →
      v ∈ st.visited ∧ v ∉ st.topological_sorted) ∧
  (∀ j ∈ st2.topological_sorted, j ∉ st.topological_sorted → j ∉ st.visited)

theorem TopoExt.refl (st : TopoState) : TopoExt st st :=
  ⟨⟨[], (List.append_nil _).symm⟩, fun _ hv => hv, fun _ hv h => ⟨hv, h⟩,
    fun _ hj hj2 => absurd hj hj2⟩

theorem TopoExt.trans {st1 st2 st3 : TopoState}
    (h12 : TopoExt st1 st2) (h23 : TopoExt st2 st3) : TopoExt st1 st3 := by
  obtain ⟨⟨d1, hd1⟩, m1, s1, n1⟩ := h12
  obtain ⟨⟨d2, hd2⟩, m2, s2, n2⟩ := h23
  refine ⟨⟨d1 ++ d2, by rw [hd2, hd1, List.append_assoc]⟩,
    fun v hv => m2 v (m1 v hv), ?_, ?_⟩
  · intro v hv hout
    obtain ⟨hv2, hout2⟩ := s2 v hv hout
    exact s1 v hv2 hout2
  · intro j hj hjout
    by_cases hmid : j ∈ st2.topological_sorted
    · exact n1 j hmid hjout
    · intro hvis1
      exact n2 j hj hmid (m1 j hvis1)

theorem OrderOK.append (g : Graph α) (out : List Nat) (i : Nat)
    (h1 : OrderOK g out) (h2 : ∀ c ∈ childrenOf g i, c ∈ out) :
    OrderOK g (out ++ [i]) := by
  intro n hn c hc
  have hlen : n < out.length + 1 := by simpa using hn
  rcases Nat.lt_succ_iff_lt_or_eq.mp hlen with h | h
  · have hget : (out ++ [i]).get ⟨n, hn⟩ = out.get ⟨n, h⟩ := by
      simp [List.get_eq_getElem, List.getElem_append_left h]
    rw [hget] at hc
    rw [List.take_append_of_le_length (le_of_lt h)]
    exact h1 n h c hc
  · subst h
    have hget : (out ++ [i]).get ⟨out.length, hn⟩ = i := by
      simp [List.get_eq_getElem, List.getElem_concat_length]
    rw [hget] at hc
    rw [List.take_append_of_le_length (le_refl _), List.take_length]
    exact h2 c hc

theorem build_topological_sort_succ (g : Graph α) (fuel i : Nat)
    (st : TopoState) :
    build_topological_sort g (fuel + 1) i st
      = if i ∈ st.visited then st
        else
          let st2 := (childrenOf g i).foldl
            (fun s c => build_topological_sort g fuel c s)
            ⟨i :: st.visited, st.topological_sorted⟩
          ⟨st2.visited, st2.topological_sorted ++ [i]⟩ := rfl

theorem build_topological_sort_sound (g : Graph α) (hwf : WfB g) :
    ∀ (fuel i : Nat) (st : TopoState), i < fuel → TopoInv g st →
      (∀ v ∈ st.visited, v ∉ st.topological_sorted → i < v) →
      TopoInv g (build_topological_sort g fuel i st) ∧
      TopoExt st (build_topological_sort g fuel i st) ∧
      i ∈ (build_topological_sort g fuel i st).topological_sorted := by
  intro fuel
  induction fuel with
  | zero =>
      intro i st h
      exact absurd h (Nat.not_lt_zero i)
  | succ fuel IH =>
      intro i st hlt hinv hstack
      by_cases hvis : i ∈ st.visited
      · have hres : build_topological_sort g (fuel + 1) i st = st := by
          rw [build_topological_sort_succ, if_pos hvis]
        have hout : i ∈ st.topological_sorted := by
          by_contra hno
          exact lt_irrefl i (hstack i hvis hno)
        rw [hres]
        exact ⟨hinv, TopoExt.refl st, hout⟩
      · have hres : build_topological_sort g (fuel + 1) i st
            = ⟨((childrenOf g i).foldl
                  (fun s c => build_topological_sort g fuel c s)
                  ⟨i :: st.visited, st.topological_sorted⟩).visited,
               ((childrenOf g i).foldl
                  (fun s c => build_topological_sort g fuel c s)
                  ⟨i :: st.visited, st.topological_sorted⟩).topological_sorted
                 ++ [i]⟩ := by
          rw [build_topological_sort_succ, if_neg hvis]
        have key : ∀ cs : List Nat, (∀ c ∈ cs, c < i) →
            ∀ st1 : TopoState, TopoInv g st1 →
            (∀ v ∈ st1.visited, v ∉ st1.topological_sorted → i ≤ v) →
            TopoInv g (cs.foldl
              (fun s c => build_topological_sort g fuel c s) st1) ∧
            TopoExt st1 (cs.foldl
              (fun s c => build_topological_sort g fuel c s) st1) ∧
            (∀ c ∈ cs, c ∈ (cs.foldl
              (fun s c => build_topological_sort g fuel c s)
                st1).topological_sorted) := by
          intro cs
          induction cs with
          | nil =>
              intro _ st1 hinv1 _
              exact ⟨hinv1, TopoExt.refl st1,
                fun c hc => absurd hc (List.not_mem_nil c)⟩
          | cons c cs ihc =>
              intro hcs st1 hinv1 hstk1
              have hci : c < i := hcs c (List.mem_cons_self c cs)
              have hcfuel : c < fuel :=
                lt_of_lt_of_le hci (Nat.lt_succ_iff.mp hlt)
              have hstkc : ∀ v ∈ st1.visited,
                  v ∉ st1.topological_sorted → c < v :=
                fun v hv hn => lt_of_lt_of_le hci (hstk1 v hv hn)
              obtain ⟨hinv2, hext2, hcmem⟩ := IH c st1 hcfuel hinv1 hstkc
              have hstk2 : ∀ v ∈ (build_topological_sort g fuel c st1).visited,
                  v ∉ (build_topological_sort g fuel c st1).topological_sorted
                    → i ≤ v := by
                intro v hv hn
                obtain ⟨hv1, hn1⟩ := hext2.2.2.1 v hv hn
                exact hstk1 v hv1 hn1
              obtain ⟨hinv3, hext3, hmem3⟩ :=
                ihc (fun c' hc' => hcs c' (List.mem_cons_of_mem c hc'))
                  (build_topological_sort g fuel c st1) hinv2 hstk2
              rw [List.foldl_cons]
              refine ⟨hinv3, TopoExt.trans hext2 hext3, ?_⟩
              intro c' hc'
              rcases List.mem_cons.mp hc' with rfl | h
              · obtain ⟨d, hd⟩ := hext3.1
                rw [hd]
                exact List.mem_append_left d hcmem
              · exact hmem3 c' h
        have hchild : ∀ c ∈ childrenOf g i, c < i := childrenOf_lt g hwf i
        have hinv1 :
            TopoInv g (⟨i :: st.visited, st.topological_sorted⟩ : TopoState) := by
          exact ⟨hinv.1,
            fun j hj => List.mem_cons_of_mem i (hinv.2.1 j hj), hinv.2.2⟩
        have hstk1 : ∀ v ∈ (i :: st.visited),
            v ∉ st.topological_sorted → i ≤ v := by
          intro v hv hn
          rcases List.mem_cons.mp hv with rfl | h
          · exact le_refl v
          · exact le_of_lt (hstack v h hn)
        obtain ⟨hinv2, hext2, hmem2⟩ :=
          key (childrenOf g i) hchild ⟨i :: st.visited, st.topological_sorted⟩
            hinv1 hstk1
        have hiout0 : i ∉ st.topological_sorted := fun h => hvis (hinv.2.1 i h)
        have hinotout2 : i ∉ ((childrenOf g i).foldl
            (fun s c => build_topological_sort g fuel c s)
            ⟨i :: st.visited, st.topological_sorted⟩).topological_sorted := by
          intro h
          exact hext2.2.2.2 i h hiout0 (List.mem_cons_self i st.visited)
        have hivis2 : i ∈ ((childrenOf g i).foldl
            (fun s c => build_topological_sort g fuel c s)
            ⟨i :: st.visited, st.topological_sorted⟩).visited :=
          hext2.2.1 i (List.mem_cons_self i st.visited)
        rw [hres]
        refine ⟨⟨?_, ?_, ?_⟩, ⟨?_, ?_, ?_, ?_⟩, ?_⟩
        · rw [List.nodup_append]
          exact ⟨hinv2.1, List.nodup_singleton i,
            fun a ha hb => hinotout2 ((List.mem_singleton.mp hb) ▸ ha)⟩
        · intro j hj
          rcases List.mem_append.mp hj with h | h
          · exact hinv2.2.1 j h
          · rw [List.mem_singleton.mp h]
            exact hivis2
        · exact OrderOK.append g _ i hinv2.2.2 hmem2
        · obtain ⟨d, hd⟩ := hext2.1
          exact ⟨d ++ [i], by rw [hd, List.append_assoc]⟩
        · intro v hv
          exact hext2.2.1 v (List.mem_cons_of_mem i hv)
        · intro v hv hout
          have hne : v ≠ i := by
            intro heq
            exact hout (List.mem_append_right _
              (heq ▸ List.mem_singleton_self i))
          have hnout2 : v ∉ ((childrenOf g i).foldl
              (fun s c => build_topological_sort g fuel c s)
              ⟨i :: st.visited, st.topological_sorted⟩).topological_sorted :=
            fun h => hout (List.mem_append_left _ h)
          obtain ⟨hv1, hn1⟩ := hext2.2.2.1 v hv hnout2
          rcases List.mem_cons.mp hv1 with heq | h
          · exact absurd heq hne
          · exact ⟨h, hn1⟩
        · intro j hj hjout
          rcases List.mem_append.mp hj with h | h
          · exact hext2.2.2.2 j h hjout ∘ List.mem_cons_of_mem i
          · rw [List.mem_singleton.mp h]
            exact hvis
        · exact List.mem_append_right _ (List.mem_singleton_self i)

/-- The ordering phase of `backward_propagation`: exactly the sequence that
`backward_propagation g root` walks in reverse. -/
def topoOrder (g : Graph α) (root : Nat) : List Nat :=
  (build_topological_sort g (root + 1) root ⟨[], []⟩).topological_sorted

/-- C4: for every graph constructed through the documented operators and
every root node in it, the ordering phase produces a sequence with no
duplicates (each node appears exactly once even under diamond sharing) that
contains the root, is closed under operands, and in which every node's
operands appear strictly before it. -/
theorem topological_order_correct (g : Graph α) (root : Nat)
    (hb : Built g) (hroot : root < g.length) :
    (topoOrder g root).Nodup ∧
    root ∈ topoOrder g root ∧
    (∀ j ∈ topoOrder g root, ∀ c ∈ childrenOf g j, c ∈ topoOrder g root) ∧
    OrderOK g (topoOrder g root) := by
  have _ := hroot
  obtain ⟨hinv, _, hmem⟩ := build_topological_sort_sound g hb.wfB
    (root + 1) root ⟨[], []⟩ (Nat.lt_succ_self root)
    ⟨List.nodup_nil, fun j hj => absurd hj (List.not_mem_nil j),
      fun n hn => absurd hn (Nat.not_lt_zero n)⟩
    (fun v hv => absurd hv (List.not_mem_nil v))
  refine ⟨hinv.1, hmem, ?_, hinv.2.2⟩
  intro j hj c hc
  obtain ⟨⟨n, hn⟩, hget⟩ := List.mem_iff_get.mp hj
  have hget2 : (build_topological_sort g (root + 1) root
      (⟨[], []⟩ : TopoState)).topological_sorted.get ⟨n, hn⟩ = j := hget
  have hc2 : c ∈ childrenOf g ((build_topological_sort g (root + 1) root
      (⟨[], []⟩ : TopoState)).topological_sorted.get ⟨n, hn⟩) := by
    rw [hget2]
    exact hc
  exact List.take_subset n _ (hinv.2.2 n hn c hc2)

/-- Concrete diamond-sharing graph for the C4 witness: `a = Node(1)`,
`s = a + a`, `t = a * s` — node 0 is reachable from the root 2 along two
paths. -/
def diamondWitness : Graph ℚ :=
  (Node.mul (Node.add (Node.leaf [] 1).1 0 0).1 0 1).1

theorem diamondWitness_built : Built diamondWitness :=
  Built.mul _ 0 1
    (Built.add _ 0 0 (Built.leaf [] 1 Built.nil) (by decide) (by decide))
    (by decide) (by decide)

/-- C4 witness: the correctness statement instantiated on the concrete
diamond graph, with both hypotheses discharged there. -/
theorem topological_order_correct_witness :
    (Built diamondWitness ∧ 2 < diamondWitness.length) ∧
    ((topoOrder diamondWitness 2).Nodup ∧
      2 ∈ topoOrder diamondWitness 2 ∧
      (∀ j ∈ topoOrder diamondWitness 2,
        ∀ c ∈ childrenOf diamondWitness j, c ∈ topoOrder diamondWitness 2) ∧
      OrderOK diamondWitness (topoOrder diamondWitness 2)) :=
  ⟨⟨diamondWitness_built, by decide⟩,
    topological_order_correct diamondWitness 2 diamondWitness_built (by decide)⟩
